import Mathlib

/-!
Verification of the three-stage pipeline (lexer, parser, code generator)
of the small source-to-source compiler in `src/main.rs`.

The embedding works on `List Char` (the `chars()` stream of the Rust code).
Loops that advance a `Peekable` iterator are modelled as fuel-indexed
structural recursions (`lexAux`, `parserAux`, `replAux`); the fuel is the
length of the remaining input, which is always sufficient because every
iteration of the corresponding Rust loop consumes at least one element.
Rust `panic!` (and `unwrap` on integer-parse failure) is modelled as `none`.
-/

/-- `ValueType` from `main.rs`: `Str(String)` or `Int(i32)`. -/
inductive ValueType where
  | Str : String → ValueType
  | Int : Int → ValueType
deriving DecidableEq

/-- `Token` from `main.rs`. -/
inductive Token where
  | Var : Token
  | Mut : Token
  | Identifier : String → Token
  | Equals : Token
  | StringLiteral : String → Token
  | IntLiteral : Int → Token
  | Semicolon : Token
  | Print : Token
  | OpenBrace : Token
  | CloseBrace : Token
deriving DecidableEq

/-- `struct VariableDeclaration` from `main.rs`. -/
structure VariableDeclaration where
  mutable : Bool
  name : String
  value : ValueType
deriving DecidableEq

/-- `struct FunctionCall` from `main.rs`. -/
structure FunctionCall where
  name : String
  arguments : List ValueType
deriving DecidableEq

/-- `enum Statement` from `main.rs`. -/
inductive Statement where
  | VariableDeclaration : VariableDeclaration → Statement
  | FunctionCall : FunctionCall → Statement
deriving DecidableEq

/-- `type AST = Vec<Statement>`. -/
abbrev AST := List Statement

/-- The whitespace class of the lexer: space (32), tab (9), newline (10),
carriage return (13). -/
def isWs (c : Char) : Bool :=
  decide (c.toNat = 32 ∨ c.toNat = 9 ∨ c.toNat = 10 ∨ c.toNat = 13)

/-- The ASCII-letter class of the lexer: `'a'..='z'` (97–122) or
`'A'..='Z'` (65–90). -/
def isLetter (c : Char) : Bool :=
  decide ((97 ≤ c.toNat ∧ c.toNat ≤ 122) ∨ (65 ≤ c.toNat ∧ c.toNat ≤ 90))

/-- The decimal-digit class of the lexer: `'0'..='9'` (48–57). -/
def isDig (c : Char) : Bool :=
  decide (48 ≤ c.toNat ∧ c.toNat ≤ 57)

/-- The double-quote character `'"'` (34). -/
def isQuote (c : Char) : Bool :=
  decide (c.toNat = 34)

/-- Numeric value of a run of decimal digits, most significant first
(the value `number.parse::<i32>()` computes when it succeeds). -/
def digitsVal (l : List Char) : Nat :=
  l.foldl (fun a c => 10 * a + (c.toNat - 48)) 0

/-- `number.parse::<i32>()` on a run of decimal digits: succeeds exactly
when the value fits into `i32` (that is, is at most 2147483647), and
otherwise fails (the Rust code then panics via `unwrap`). -/
def parseI32 (l : List Char) : Option Int :=
  if digitsVal l ≤ 2147483647 then some (Int.ofNat (digitsVal l)) else none

/-- Tokens emitted by the lexer for one maximal run of ASCII letters
(`main.rs` lines 63–73).  The `print` check is an independent `if`, not
part of the `var`/`mut` `else if` chain, so the run `print` yields the
`Print` marker AND `Identifier "print"`. -/
def keywordTokens (name : List Char) : List Token :=
  (if String.mk name = "print" then [Token.Print] else []) ++
  (if String.mk name = "var" then [Token.Var]
   else if String.mk name = "mut" then [Token.Mut]
   else [Token.Identifier (String.mk name)])

/-- Fuel-indexed main loop of `lexer` (`main.rs` lines 45–121).  Each
iteration consumes at least one character, so fuel equal to the length of
the input is sufficient; the `0, _ :: _` row is unreachable from `lexer`. -/
def lexAux : Nat → List Char → Option (List Token)
  | _, [] => some []
  | 0, _ :: _ => none
  | n + 1, c :: cs =>
    if isWs c = true then lexAux n cs
    else if isLetter c = true then
      (fun ts => keywordTokens (c :: cs.takeWhile isLetter) ++ ts) <$>
        lexAux n (cs.dropWhile isLetter)
    else if isQuote c = true then
      (fun ts => Token.StringLiteral (String.mk (cs.takeWhile (fun d => !isQuote d))) :: ts) <$>
        lexAux n ((cs.dropWhile (fun d => !isQuote d)).drop 1)
    else if isDig c = true then
      match parseI32 (c :: cs.takeWhile isDig) with
      | some v => (fun ts => Token.IntLiteral v :: ts) <$> lexAux n (cs.dropWhile isDig)
      | none => none
    else if c.toNat = 61 then (fun ts => Token.Equals :: ts) <$> lexAux n cs
    else if c.toNat = 59 then (fun ts => Token.Semicolon :: ts) <$> lexAux n cs
    else if c.toNat = 123 then (fun ts => Token.OpenBrace :: ts) <$> lexAux n cs
    else if c.toNat = 125 then (fun ts => Token.CloseBrace :: ts) <$> lexAux n cs
    else lexAux n cs

/-- `fn lexer(input: &str) -> Vec<Token>`, with `none` for the panic on
integer-literal overflow. -/
def lexer (s : List Char) : Option (List Token) :=
  lexAux s.length s

/-- Fuel-indexed main loop of `parser` (`main.rs` lines 123–176).  The
token shapes mirror the iterator walk of the source: after `Var`
(optionally `Mut`) an `Identifier` is required, one token is consumed
unconditionally in place of `=`, then a literal is required, then one
token is consumed unconditionally in place of `;`.  After `Print` one
token is consumed unconditionally (the comment in the source says `'('`,
but `(` never lexes to a token), then a literal is required, then one
token is consumed unconditionally.  All `panic!` paths are `none`; any
other leading token is skipped. -/
def parserAux : Nat → List Token → Option (List Statement)
  | _, [] => some []
  | 0, _ :: _ => none
  | n + 1, Token.Var :: Token.Mut :: Token.Identifier name :: _ :: Token.StringLiteral v :: r =>
    (fun a => Statement.VariableDeclaration ⟨true, name, ValueType.Str v⟩ :: a) <$>
      parserAux n (r.drop 1)
  | n + 1, Token.Var :: Token.Mut :: Token.Identifier name :: _ :: Token.IntLiteral v :: r =>
    (fun a => Statement.VariableDeclaration ⟨true, name, ValueType.Int v⟩ :: a) <$>
      parserAux n (r.drop 1)
  | n + 1, Token.Var :: Token.Identifier name :: _ :: Token.StringLiteral v :: r =>
    (fun a => Statement.VariableDeclaration ⟨false, name, ValueType.Str v⟩ :: a) <$>
      parserAux n (r.drop 1)
  | n + 1, Token.Var :: Token.Identifier name :: _ :: Token.IntLiteral v :: r =>
    (fun a => Statement.VariableDeclaration ⟨false, name, ValueType.Int v⟩ :: a) <$>
      parserAux n (r.drop 1)
  | _ + 1, Token.Var :: _ => none
  | n + 1, Token.Print :: _ :: Token.StringLiteral v :: r =>
    (fun a => Statement.FunctionCall ⟨"print", [ValueType.Str v]⟩ :: a) <$>
      parserAux n (r.drop 1)
  | n + 1, Token.Print :: _ :: Token.IntLiteral v :: r =>
    (fun a => Statement.FunctionCall ⟨"print", [ValueType.Int v]⟩ :: a) <$>
      parserAux n (r.drop 1)
  | _ + 1, Token.Print :: _ => none
  | n + 1, _ :: rest => parserAux n rest

/-- `fn parser(tokens: &[Token]) -> AST`, with `none` for the panics. -/
def parser (ts : List Token) : Option (List Statement) :=
  parserAux ts.length ts

/-- `s.split(|c| c == '{' || c == '}')` from `main.rs` line 200:
both braces are independent single-character delimiters; consecutive
delimiters and delimiters at the ends yield empty segments. -/
def splitBraces : List Char → List (List Char)
  | [] => [[]]
  | c :: rest =>
    if c.toNat = 123 ∨ c.toNat = 125 then [] :: splitBraces rest
    else (splitBraces rest).modifyHead (fun seg => c :: seg)

/-- Fuel-indexed version of `str::replace` (`main.rs` line 202): replaces
every non-overlapping occurrence of `pat` left to right.  `replaceAll` is
only invoked with the nonempty pattern `{segment}`, so the empty-pattern
behaviour of Rust is irrelevant; each step consumes at least one
character, so fuel equal to the length of the string suffices. -/
def replAux : Nat → List Char → List Char → List Char → List Char
  | _, _, _, [] => []
  | 0, _, _, s => s
  | n + 1, pat, rep, c :: rest =>
    if pat.isPrefixOf (c :: rest) ∧ pat ≠ [] then
      rep ++ replAux n pat rep ((c :: rest).drop pat.length)
    else
      c :: replAux n pat rep rest

/-- `str::replace` on character lists. -/
def replaceAll (pat rep s : List Char) : List Char :=
  replAux s.length pat rep s

/-- One iteration of the interpolation loop of `generate_js`
(`main.rs` lines 200–204): re-lex the segment (propagating the
integer-overflow panic as `none`); if the first token is exactly
`Identifier` of the whole segment text, replace every occurrence of
`{segment}` in the accumulated string by `${segment}`. -/
def interpStep (acc seg : List Char) : Option (List Char) :=
  match lexer seg with
  | none => none
  | some toks =>
    some (if toks.head? = some (Token.Identifier (String.mk seg)) then
            replaceAll (Char.ofNat 123 :: seg ++ [Char.ofNat 125])
              (Char.ofNat 36 :: Char.ofNat 123 :: seg ++ [Char.ofNat 125]) acc
          else acc)

/-- The interpolation rewrite of `generate_js` applied to the raw string
of a `print` argument: fold `interpStep` over the brace-split segments of
the original string, starting from the original string. -/
def interpolate (s : List Char) : Option (List Char) :=
  (splitBraces s).foldlM interpStep s

/-- The line generated for a `VariableDeclaration`
(`main.rs` lines 183–192): `let`/`const`, name, `=`, the rendered value
(single-quoted for strings, decimal for integers), newline. -/
def declLine (d : VariableDeclaration) : List Char :=
  (if d.mutable then "let " else "const ").data ++ d.name.data ++ " = ".data ++
    (match d.value with
     | ValueType.Str s => Char.ofNat 39 :: s.data ++ [Char.ofNat 39]
     | ValueType.Int i => (toString i).data) ++ "\n".data

/-- The line generated for one interpolated `print` string argument
(`main.rs` line 205). -/
def printLine (t : List Char) : List Char :=
  "console.log(`".data ++ t ++ "`)\n".data

/-- Output of `generate_js` for a single statement (the body of the
`for statement in ast` loop, `main.rs` lines 181–213): a declaration
emits its line; a call named `print` emits one line per `Str` argument
(running the interpolation rewrite, whose re-lexing can panic, hence
`Option`) and nothing for `Int` arguments; any other call emits nothing. -/
def genStmt : Statement → Option (List Char)
  | Statement.VariableDeclaration d => some (declLine d)
  | Statement.FunctionCall f =>
    if f.name = "print" then
      f.arguments.foldlM (fun acc a =>
        match a with
        | ValueType.Str s => (interpolate s.data).map (fun t => acc ++ printLine t)
        | ValueType.Int _ => some acc) ([] : List Char)
    else some []

/-- `fn generate_js(ast: &AST) -> String`, with `none` for the panic
that the re-lexing inside the interpolation rewrite can raise. -/
def generate_js (ast : AST) : Option (List Char) :=
  ast.foldlM (fun acc st => (genStmt st).map (fun l => acc ++ l)) ([] : List Char)

/-- The full pipeline of `main`: lex, parse, generate. -/
def compile (s : List Char) : Option (List Char) :=
  (lexer s).bind fun ts => (parser ts).bind fun ast => generate_js ast

/-- Number of output lines `generate_js` produces for a statement:
one per declaration, one per `Str` argument of a call named `print`,
zero otherwise. -/
def lineCount : Statement → Nat
  | Statement.VariableDeclaration _ => 1
  | Statement.FunctionCall f =>
    if f.name = "print" then
      f.arguments.countP (fun a => match a with | ValueType.Str _ => true | ValueType.Int _ => false)
    else 0

/-- The chunk list (one chunk per emitted line) that `genStmt` joins. -/
def stmtChunks : Statement → Option (List (List Char))
  | Statement.VariableDeclaration d => some [declLine d]
  | Statement.FunctionCall f =>
    if f.name = "print" then
      f.arguments.foldlM (fun acc a =>
        match a with
        | ValueType.Str s => (interpolate s.data).map (fun t => acc ++ [printLine t])
        | ValueType.Int _ => some acc) ([] : List (List Char))
    else some []

/-- Chunk lists for a whole AST, one entry per statement. -/
def astChunks : List Statement → Option (List (List (List Char)))
  | [] => some []
  | st :: rest =>
    match stmtChunks st, astChunks rest with
    | some cs, some css => some (cs :: css)
    | _, _ => none

/-- A list of whitespace characters. -/
def wsOnly (w : List Char) : Prop := ∀ c ∈ w, isWs c = true

/-- Number of double quotes in a character list. -/
def quoteCount (s : List Char) : Nat := s.countP isQuote

/-- All string literals opened in `s` are closed in `s` (no escape
processing, so this is just quote parity). -/
def evenQuotes (s : List Char) : Prop := quoteCount s % 2 = 0

/-- The boundary between `s₁` and `s₂` is a token boundary: it does not
split a letter run or a digit run. -/
def sepOk (s₁ s₂ : List Char) : Prop :=
  ∀ a b, s₁.getLast? = some a → s₂.head? = some b →
    (isLetter a = false ∨ isLetter b = false) ∧ (isDig a = false ∨ isDig b = false)

/-! ### Character-class facts -/

theorem isWs_of_isLetter {c : Char} (h : isLetter c = true) : isWs c = false := by
  simp only [isLetter, decide_eq_true_eq] at h
  simp only [isWs, decide_eq_false_iff_not]
  omega

theorem isWs_of_isDig {c : Char} (h : isDig c = true) : isWs c = false := by
  simp only [isDig, decide_eq_true_eq] at h
  simp only [isWs, decide_eq_false_iff_not]
  omega

theorem isLetter_of_isDig {c : Char} (h : isDig c = true) : isLetter c = false := by
  simp only [isDig, decide_eq_true_eq] at h
  simp only [isLetter, decide_eq_false_iff_not]
  omega

theorem isQuote_of_isLetter {c : Char} (h : isLetter c = true) : isQuote c = false := by
  simp only [isLetter, decide_eq_true_eq] at h
  simp only [isQuote, decide_eq_false_iff_not]
  omega

theorem isQuote_of_isDig {c : Char} (h : isDig c = true) : isQuote c = false := by
  simp only [isDig, decide_eq_true_eq] at h
  simp only [isQuote, decide_eq_false_iff_not]
  omega

theorem isQuote_of_isWs {c : Char} (h : isWs c = true) : isQuote c = false := by
  simp only [isWs, decide_eq_true_eq] at h
  simp only [isQuote, decide_eq_false_iff_not]
  omega

theorem isLetter_of_isWs {c : Char} (h : isWs c = true) : isLetter c = false := by
  simp only [isWs, decide_eq_true_eq] at h
  simp only [isLetter, decide_eq_false_iff_not]
  omega

theorem isDig_of_isWs {c : Char} (h : isWs c = true) : isDig c = false := by
  simp only [isWs, decide_eq_true_eq] at h
  simp only [isDig, decide_eq_false_iff_not]
  omega

theorem isDig_of_isLetter {c : Char} (h : isLetter c = true) : isDig c = false := by
  simp only [isLetter, decide_eq_true_eq] at h
  simp only [isDig, decide_eq_false_iff_not]
  omega

/-! ### takeWhile / dropWhile over appends -/

theorem length_dropWhile_le' (p : α → Bool) (l : List α) :
    (l.dropWhile p).length ≤ l.length := by
  induction l with
  | nil => simp
  | cons x xs ih =>
    by_cases h : p x = true
    · rw [List.dropWhile_cons_of_pos h]; exact le_trans ih (Nat.le_succ _)
    · rw [List.dropWhile_cons_of_neg (by simp [h])]

theorem takeWhile_append_sat {p : α → Bool} {a : List α} (b : List α)
    (h : ∀ x ∈ a, p x = true) : (a ++ b).takeWhile p = a ++ b.takeWhile p := by
  induction a with
  | nil => simp
  | cons x xs ih =>
    have hx : p x = true := h x (List.mem_cons_self x xs)
    simp only [List.cons_append, List.takeWhile_cons_of_pos hx, List.cons.injEq, true_and]
    exact ih (fun y hy => h y (List.mem_cons_of_mem x hy))

theorem dropWhile_append_sat {p : α → Bool} {a : List α} (b : List α)
    (h : ∀ x ∈ a, p x = true) : (a ++ b).dropWhile p = b.dropWhile p := by
  induction a with
  | nil => simp
  | cons x xs ih =>
    have hx : p x = true := h x (List.mem_cons_self x xs)
    simp only [List.cons_append, List.dropWhile_cons_of_pos hx]
    exact ih (fun y hy => h y (List.mem_cons_of_mem x hy))

theorem takeWhile_append_stop {p : α → Bool} {d : α} (a b : List α)
    (hd : p d = false) : (a ++ d :: b).takeWhile p = a.takeWhile p := by
  have hd' : ¬ p d = true := by simp [hd]
  induction a with
  | nil => simp [List.takeWhile_cons_of_neg hd']
  | cons x xs ih =>
    by_cases hx : p x = true
    · simp only [List.cons_append, List.takeWhile_cons_of_pos hx, ih]
    · have hx' : ¬ p x = true := hx
      simp only [List.cons_append, List.takeWhile_cons_of_neg hx']

theorem dropWhile_append_stop {p : α → Bool} {d : α} (a b : List α)
    (hd : p d = false) : (a ++ d :: b).dropWhile p = a.dropWhile p ++ d :: b := by
  have hd' : ¬ p d = true := by simp [hd]
  induction a with
  | nil => simp [List.dropWhile_cons_of_neg hd']
  | cons x xs ih =>
    by_cases hx : p x = true
    · simp only [List.cons_append, List.dropWhile_cons_of_pos hx, ih]
    · have hx' : ¬ p x = true := hx
      simp only [List.cons_append, List.dropWhile_cons_of_neg hx']

theorem takeWhile_eq_self_of_sat {p : α → Bool} {a : List α}
    (h : ∀ x ∈ a, p x = true) : a.takeWhile p = a := by
  have := takeWhile_append_sat (p := p) (a := a) [] h
  simpa using this

theorem dropWhile_eq_nil_of_sat {p : α → Bool} {a : List α}
    (h : ∀ x ∈ a, p x = true) : a.dropWhile p = [] := by
  have := dropWhile_append_sat (p := p) (a := a) [] h
  simpa using this

theorem dropWhile_head_false {p : α → Bool} {d : α} {t : List α} :
    ∀ {l : List α}, l.dropWhile p = d :: t → p d = false := by
  intro l
  induction l with
  | nil => intro h; simp at h
  | cons x xs ih =>
    intro h
    by_cases hx : p x = true
    · rw [List.dropWhile_cons_of_pos hx] at h; exact ih h
    · rw [List.dropWhile_cons_of_neg (by simp [hx])] at h
      cases h
      simpa using hx

theorem sat_of_dropWhile_eq_nil {p : α → Bool} {l : List α}
    (h : l.dropWhile p = []) : ∀ x ∈ l, p x = true := by
  induction l with
  | nil => simp
  | cons x xs ih =>
    by_cases hx : p x = true
    · rw [List.dropWhile_cons_of_pos hx] at h
      intro y hy
      rcases List.mem_cons.mp hy with rfl | hy
      · exact hx
      · exact ih h y hy
    · rw [List.dropWhile_cons_of_neg (by simp [hx])] at h
      simp at h

/-! ### Fuel monotonicity and step equations for the lexer -/

theorem lexAux_mono : ∀ (n : Nat) (s : List Char) (m : Nat),
    s.length ≤ n → s.length ≤ m → lexAux n s = lexAux m s := by
  intro n
  induction n with
  | zero =>
    intro s m h1 _
    have hs : s = [] := List.eq_nil_of_length_eq_zero (Nat.le_zero.mp h1)
    subst hs
    cases m <;> rfl
  | succ n ih =>
    intro s m h1 h2
    cases s with
    | nil => cases m <;> rfl
    | cons c cs =>
      cases m with
      | zero => simp at h2
      | succ m' =>
        have hcs : cs.length ≤ n := by simpa using h1
        have hcs' : cs.length ≤ m' := by simpa using h2
        have hdl := length_dropWhile_le' isLetter cs
        have hdq : ((cs.dropWhile (fun d => !isQuote d)).drop 1).length ≤ cs.length := by
          have h := length_dropWhile_le' (fun d => !isQuote d) cs
          simp only [List.length_drop]
          omega
        have hdd := length_dropWhile_le' isDig cs
        simp only [lexAux]
        by_cases hws : isWs c = true
        · simp only [if_pos hws]
          exact ih cs m' hcs hcs'
        · simp only [if_neg hws]
          by_cases hl : isLetter c = true
          · simp only [if_pos hl]
            rw [ih _ m' (le_trans hdl hcs) (le_trans hdl hcs')]
          · simp only [if_neg hl]
            by_cases hq : isQuote c = true
            · simp only [if_pos hq]
              rw [ih _ m' (le_trans hdq hcs) (le_trans hdq hcs')]
            · simp only [if_neg hq]
              by_cases hd : isDig c = true
              · simp only [if_pos hd]
                cases hp : parseI32 (c :: cs.takeWhile isDig) with
                | none => rfl
                | some v => rw [ih _ m' (le_trans hdd hcs) (le_trans hdd hcs')]
              · simp only [if_neg hd]
                by_cases h61 : c.toNat = 61
                · simp only [if_pos h61]
                  rw [ih cs m' hcs hcs']
                · simp only [if_neg h61]
                  by_cases h59 : c.toNat = 59
                  · simp only [if_pos h59]
                    rw [ih cs m' hcs hcs']
                  · simp only [if_neg h59]
                    by_cases h123 : c.toNat = 123
                    · simp only [if_pos h123]
                      rw [ih cs m' hcs hcs']
                    · simp only [if_neg h123]
                      by_cases h125 : c.toNat = 125
                      · simp only [if_pos h125]
                        rw [ih cs m' hcs hcs']
                      · simp only [if_neg h125]
                        exact ih cs m' hcs hcs'

theorem lexer_nil : lexer [] = some [] := rfl

theorem lexer_cons_ws {c : Char} {cs : List Char} (h : isWs c = true) :
    lexer (c :: cs) = lexer cs := by
  show lexAux (cs.length + 1) (c :: cs) = lexAux cs.length cs
  simp only [lexAux]
  rw [if_pos h]

theorem lexer_cons_letter {c : Char} {cs : List Char}
    (h2 : isLetter c = true) :
    lexer (c :: cs) =
      (fun ts => keywordTokens (c :: cs.takeWhile isLetter) ++ ts) <$>
        lexer (cs.dropWhile isLetter) := by
  have h1 : isWs c = false := isWs_of_isLetter h2
  show lexAux (cs.length + 1) (c :: cs) = _
  simp only [lexAux]
  rw [if_neg (by simp [h1]), if_pos h2]
  rw [lexAux_mono cs.length (cs.dropWhile isLetter) (cs.dropWhile isLetter).length
    (length_dropWhile_le' _ _) (le_refl _)]
  rfl

theorem lexer_cons_quote {c : Char} {cs : List Char}
    (h1 : isWs c = false) (h2 : isLetter c = false) (h3 : isQuote c = true) :
    lexer (c :: cs) =
      (fun ts => Token.StringLiteral (String.mk (cs.takeWhile (fun d => !isQuote d))) :: ts) <$>
        lexer ((cs.dropWhile (fun d => !isQuote d)).drop 1) := by
  show lexAux (cs.length + 1) (c :: cs) = _
  simp only [lexAux]
  rw [if_neg (by simp [h1]), if_neg (by simp [h2]), if_pos h3]
  have hdq : ((cs.dropWhile (fun d => !isQuote d)).drop 1).length ≤ cs.length := by
    have h := length_dropWhile_le' (fun d => !isQuote d) cs
    simp only [List.length_drop]
    omega
  rw [lexAux_mono cs.length _ ((cs.dropWhile (fun d => !isQuote d)).drop 1).length
    hdq (le_refl _)]
  rfl

theorem lexer_cons_digit {c : Char} {cs : List Char}
    (h3 : isDig c = true) :
    lexer (c :: cs) =
      match parseI32 (c :: cs.takeWhile isDig) with
      | some v => (fun ts => Token.IntLiteral v :: ts) <$> lexer (cs.dropWhile isDig)
      | none => none := by
  have h1 : isWs c = false := isWs_of_isDig h3
  have h2 : isLetter c = false := isLetter_of_isDig h3
  have hq : isQuote c = false := isQuote_of_isDig h3
  show lexAux (cs.length + 1) (c :: cs) = _
  simp only [lexAux]
  rw [if_neg (by simp [h1]), if_neg (by simp [h2]), if_neg (by simp [hq]), if_pos h3]
  cases hp : parseI32 (c :: cs.takeWhile isDig) with
  | none => rfl
  | some v =>
    rw [lexAux_mono cs.length (cs.dropWhile isDig) (cs.dropWhile isDig).length
      (length_dropWhile_le' _ _) (le_refl _)]
    rfl

theorem lexer_cons_equals {c : Char} {cs : List Char}
    (h1 : isWs c = false) (h2 : isLetter c = false) (h3 : isQuote c = false)
    (h4 : isDig c = false) (h5 : c.toNat = 61) :
    lexer (c :: cs) = (fun ts => Token.Equals :: ts) <$> lexer cs := by
  show lexAux (cs.length + 1) (c :: cs) = _
  simp only [lexAux]
  rw [if_neg (by simp [h1]), if_neg (by simp [h2]), if_neg (by simp [h3]),
    if_neg (by simp [h4]), if_pos h5]
  rfl

theorem lexer_cons_semicolon {c : Char} {cs : List Char}
    (h1 : isWs c = false) (h2 : isLetter c = false) (h3 : isQuote c = false)
    (h4 : isDig c = false) (h5 : c.toNat = 59) :
    lexer (c :: cs) = (fun ts => Token.Semicolon :: ts) <$> lexer cs := by
  show lexAux (cs.length + 1) (c :: cs) = _
  simp only [lexAux]
  rw [if_neg (by simp [h1]), if_neg (by simp [h2]), if_neg (by simp [h3]),
    if_neg (by simp [h4]), if_neg (by omega), if_pos h5]
  rfl

theorem lexer_cons_open {c : Char} {cs : List Char}
    (h1 : isWs c = false) (h2 : isLetter c = false) (h3 : isQuote c = false)
    (h4 : isDig c = false) (h5 : c.toNat = 123) :
    lexer (c :: cs) = (fun ts => Token.OpenBrace :: ts) <$> lexer cs := by
  show lexAux (cs.length + 1) (c :: cs) = _
  simp only [lexAux]
  rw [if_neg (by simp [h1]), if_neg (by simp [h2]), if_neg (by simp [h3]),
    if_neg (by simp [h4]), if_neg (by omega), if_neg (by omega), if_pos h5]
  rfl

theorem lexer_cons_close {c : Char} {cs : List Char}
    (h1 : isWs c = false) (h2 : isLetter c = false) (h3 : isQuote c = false)
    (h4 : isDig c = false) (h5 : c.toNat = 125) :
    lexer (c :: cs) = (fun ts => Token.CloseBrace :: ts) <$> lexer cs := by
  show lexAux (cs.length + 1) (c :: cs) = _
  simp only [lexAux]
  rw [if_neg (by simp [h1]), if_neg (by simp [h2]), if_neg (by simp [h3]),
    if_neg (by simp [h4]), if_neg (by omega), if_neg (by omega), if_neg (by omega),
    if_pos h5]
  rfl

theorem lexer_cons_other {c : Char} {cs : List Char}
    (h1 : isWs c = false) (h2 : isLetter c = false) (h3 : isQuote c = false)
    (h4 : isDig c = false) (h5 : c.toNat ≠ 61) (h6 : c.toNat ≠ 59)
    (h7 : c.toNat ≠ 123) (h8 : c.toNat ≠ 125) :
    lexer (c :: cs) = lexer cs := by
  show lexAux (cs.length + 1) (c :: cs) = lexAux cs.length cs
  simp only [lexAux]
  rw [if_neg (by simp [h1]), if_neg (by simp [h2]), if_neg (by simp [h3]),
    if_neg (by simp [h4]), if_neg h5, if_neg h6, if_neg h7, if_neg h8]

/-! ### Whitespace skipping, digit values, parser steps -/

theorem lexer_ws_skip : ∀ (w t : List Char), wsOnly w → lexer (w ++ t) = lexer t := by
  intro w
  induction w with
  | nil => intro t _; rfl
  | cons c w' ih =>
    intro t hw
    have hc : isWs c = true := hw c (List.mem_cons_self c w')
    rw [List.cons_append, lexer_cons_ws hc]
    exact ih t (fun d hd => hw d (List.mem_cons_of_mem c hd))

theorem foldl_digits (l : List Char) : ∀ acc : Nat,
    l.foldl (fun a c => 10 * a + (c.toNat - 48)) acc =
      acc * 10 ^ l.length + digitsVal l := by
  induction l with
  | nil => intro acc; simp [digitsVal]
  | cons c cs ih =>
    intro acc
    show cs.foldl _ (10 * acc + (c.toNat - 48)) = _
    rw [ih (10 * acc + (c.toNat - 48))]
    have hd : digitsVal (c :: cs) = (c.toNat - 48) * 10 ^ cs.length + digitsVal cs := by
      show cs.foldl _ (10 * 0 + (c.toNat - 48)) = _
      rw [ih (10 * 0 + (c.toNat - 48))]
      ring
    rw [hd, List.length_cons]
    ring

theorem digitsVal_append (a b : List Char) :
    digitsVal (a ++ b) = digitsVal a * 10 ^ b.length + digitsVal b := by
  show (a ++ b).foldl _ 0 = _
  rw [List.foldl_append]
  exact foldl_digits b (digitsVal a)

theorem digitsVal_le_append_right (a b : List Char) :
    digitsVal b ≤ digitsVal (a ++ b) := by
  rw [digitsVal_append]
  exact Nat.le_add_left _ _

theorem digitsVal_le_append_left (a b : List Char) :
    digitsVal a ≤ digitsVal (a ++ b) := by
  rw [digitsVal_append]
  have h1 : 1 ≤ 10 ^ b.length := Nat.one_le_pow _ _ (by omega)
  calc digitsVal a = digitsVal a * 1 := by ring
    _ ≤ digitsVal a * 10 ^ b.length := Nat.mul_le_mul_left _ h1
    _ ≤ digitsVal a * 10 ^ b.length + digitsVal b := Nat.le_add_right _ _

theorem parser_nil : parser [] = some [] := rfl

theorem parser_skip (t : Token) (rest : List Token)
    (h1 : t ≠ Token.Var) (h2 : t ≠ Token.Print) :
    parser (t :: rest) = parser rest := by
  cases t with
  | Var => exact absurd rfl h1
  | Print => exact absurd rfl h2
  | Mut => rfl
  | Identifier s => rfl
  | Equals => rfl
  | StringLiteral s => rfl
  | IntLiteral v => rfl
  | Semicolon => rfl
  | OpenBrace => rfl
  | CloseBrace => rfl

theorem parser_var_str (name v : String) :
    parser [Token.Var, Token.Identifier name, Token.Equals,
      Token.StringLiteral v, Token.Semicolon] =
      some [Statement.VariableDeclaration ⟨false, name, ValueType.Str v⟩] := rfl

theorem parser_var_mut_int (name : String) (v : Int) :
    parser [Token.Var, Token.Mut, Token.Identifier name, Token.Equals,
      Token.IntLiteral v, Token.Semicolon] =
      some [Statement.VariableDeclaration ⟨true, name, ValueType.Int v⟩] := rfl

theorem isWs_of_isQuote {c : Char} (h : isQuote c = true) : isWs c = false := by
  simp only [isQuote, decide_eq_true_eq] at h
  simp only [isWs, decide_eq_false_iff_not]
  omega

theorem isLetter_of_isQuote {c : Char} (h : isQuote c = true) : isLetter c = false := by
  simp only [isQuote, decide_eq_true_eq] at h
  simp only [isLetter, decide_eq_false_iff_not]
  omega

/-- The lexer on a maximal run of letters at the head of the input:
the whole run is scanned as one name and `keywordTokens` of it is
emitted, after which lexing continues on the rest. -/
theorem lexer_letter_run (run rest : List Char) (hne : run ≠ [])
    (hall : ∀ c ∈ run, isLetter c = true)
    (hstop : ∀ d, rest.head? = some d → isLetter d = false) :
    lexer (run ++ rest) = (fun ts => keywordTokens run ++ ts) <$> lexer rest := by
  cases run with
  | nil => exact absurd rfl hne
  | cons c run' =>
    have hc : isLetter c = true := hall c (List.mem_cons_self c run')
    have hall' : ∀ x ∈ run', isLetter x = true := fun x hx => hall x (List.mem_cons_of_mem c hx)
    rw [List.cons_append, lexer_cons_letter hc]
    cases rest with
    | nil =>
      rw [List.append_nil, takeWhile_eq_self_of_sat hall', dropWhile_eq_nil_of_sat hall']
    | cons d rest' =>
      have hd : isLetter d = false := hstop d rfl
      rw [takeWhile_append_stop run' rest' hd, dropWhile_append_stop run' rest' hd,
        takeWhile_eq_self_of_sat hall', dropWhile_eq_nil_of_sat hall', List.nil_append]

/-- The lexer on a run of digits at the head of the input, bounded on the
right by a non-digit (or the end): the run is scanned as one number. -/
theorem lexer_digit_run (run rest : List Char) (hne : run ≠ [])
    (hall : ∀ c ∈ run, isDig c = true)
    (hstop : ∀ d, rest.head? = some d → isDig d = false) :
    lexer (run ++ rest) =
      match parseI32 run with
      | some v => (fun ts => Token.IntLiteral v :: ts) <$> lexer rest
      | none => none := by
  cases run with
  | nil => exact absurd rfl hne
  | cons c run' =>
    have hc : isDig c = true := hall c (List.mem_cons_self c run')
    have hall' : ∀ x ∈ run', isDig x = true := fun x hx => hall x (List.mem_cons_of_mem c hx)
    rw [List.cons_append, lexer_cons_digit hc]
    cases rest with
    | nil =>
      rw [List.append_nil, takeWhile_eq_self_of_sat hall', dropWhile_eq_nil_of_sat hall']
    | cons d rest' =>
      have hd : isDig d = false := hstop d rfl
      rw [takeWhile_append_stop run' rest' hd, dropWhile_append_stop run' rest' hd,
        takeWhile_eq_self_of_sat hall', dropWhile_eq_nil_of_sat hall', List.nil_append]

/-- The lexer on a run of digits at the head of the input whose value
overflows `i32`: the lexer fails no matter what follows, because the
maximal digit run scanned extends the given run on the right and its
value can only grow. -/
theorem lexer_digit_run_overflow (run rest : List Char) (hne : run ≠ [])
    (hall : ∀ c ∈ run, isDig c = true)
    (hover : 2147483647 < digitsVal run) :
    lexer (run ++ rest) = none := by
  cases run with
  | cons c run' =>
    have hc : isDig c = true := hall c (List.mem_cons_self c run')
    have hall' : ∀ x ∈ run', isDig x = true := fun x hx => hall x (List.mem_cons_of_mem c hx)
    rw [List.cons_append, lexer_cons_digit hc]
    rw [takeWhile_append_sat rest hall']
    have hbig : 2147483647 < digitsVal (c :: (run' ++ rest.takeWhile isDig)) := by
      have h1 : digitsVal (c :: run') ≤ digitsVal ((c :: run') ++ rest.takeWhile isDig) :=
        digitsVal_le_append_left _ _
      have h2 : (c :: run') ++ rest.takeWhile isDig = c :: (run' ++ rest.takeWhile isDig) := rfl
      rw [h2] at h1
      omega
    have : parseI32 (c :: (run' ++ rest.takeWhile isDig)) = none := by
      unfold parseI32
      rw [if_neg (by omega)]
    rw [this]
  | nil => exact absurd rfl hne

/-- The lexer on a string literal at the head of the input: everything
between the two quotes becomes one `StringLiteral` token, both quotes are
consumed, and lexing continues after the closing quote. -/
theorem lexer_string_run (c q : Char) (text tail : List Char)
    (hc : isQuote c = true) (hq : isQuote q = true)
    (htext : ∀ x ∈ text, isQuote x = false) :
    lexer (c :: (text ++ q :: tail)) =
      (fun ts => Token.StringLiteral (String.mk text) :: ts) <$> lexer tail := by
  rw [lexer_cons_quote (isWs_of_isQuote hc) (isLetter_of_isQuote hc) hc]
  have hqf : (fun d => !isQuote d) q = false := by simp [hq]
  have hsat : ∀ x ∈ text, (fun d => !isQuote d) x = true := by
    intro x hx
    simp [htext x hx]
  rw [takeWhile_append_stop text tail hqf, dropWhile_append_stop text tail hqf,
    takeWhile_eq_self_of_sat hsat, dropWhile_eq_nil_of_sat hsat, List.nil_append,
    List.drop_one, List.tail_cons]

/-- `keywordTokens` of a name that is none of the reserved words is the
single `Identifier` token. -/
theorem keywordTokens_id (name : List Char) (h1 : String.mk name ≠ "print")
    (h2 : String.mk name ≠ "var") (h3 : String.mk name ≠ "mut") :
    keywordTokens name = [Token.Identifier (String.mk name)] := by
  unfold keywordTokens
  rw [if_neg h1, if_neg h2, if_neg h3, List.nil_append]

theorem head_stop_letter {c : Char} (hc : isLetter c = false) (Y : List Char) :
    ∀ d, (c :: Y).head? = some d → isLetter d = false := by
  intro d hd
  rw [List.head?_cons] at hd
  injection hd with h
  subst h
  exact hc

theorem head_stop_dig {c : Char} (hc : isDig c = false) (Y : List Char) :
    ∀ d, (c :: Y).head? = some d → isDig d = false := by
  intro d hd
  rw [List.head?_cons] at hd
  injection hd with h
  subst h
  exact hc

/-- C1 counterexample: the maximal letter run `print` does NOT produce
exactly one token, and an `Identifier` token for it IS emitted: the lexer
yields two tokens, `Print` followed by `Identifier "print"`, because the
`print` check in `main.rs` (line 63) is an independent `if` and the
`var`/`mut`/identifier chain (lines 67–73) runs afterwards as well. -/
theorem lexer_print_run_two_tokens :
    lexer "print".data = some [Token.Print, Token.Identifier "print"] ∧
    (lexer "print".data).map List.length = some 2 := by
  exact ⟨by decide, by decide⟩

/-- C1 amended: for every maximal run of ASCII letters the lexer emits
`keywordTokens` of the run and continues; this is exactly one token when
the run is not `print`, and exactly the two tokens `Print` followed by
`Identifier "print"` when the run is `print`. -/
theorem letter_run_token_emission (run rest : List Char) (hne : run ≠ [])
    (hall : ∀ c ∈ run, isLetter c = true)
    (hstop : ∀ d, rest.head? = some d → isLetter d = false) :
    lexer (run ++ rest) = (fun ts => keywordTokens run ++ ts) <$> lexer rest ∧
    (String.mk run ≠ "print" → (keywordTokens run).length = 1) ∧
    (String.mk run = "print" →
      keywordTokens run = [Token.Print, Token.Identifier "print"]) := by
  refine ⟨lexer_letter_run run rest hne hall hstop, ?_, ?_⟩
  · intro h
    unfold keywordTokens
    rw [if_neg h]
    by_cases hv : String.mk run = "var"
    · rw [if_pos hv]
      rfl
    · rw [if_neg hv]
      by_cases hm : String.mk run = "mut"
      · rw [if_pos hm]
        rfl
      · rw [if_neg hm]
        rfl
  · intro h
    unfold keywordTokens
    rw [if_pos h, if_neg (by rw [h]; decide), if_neg (by rw [h]; decide), h]
    rfl

theorem letter_run_token_emission_witness :
    lexer ("print".data ++ []) =
      (fun ts => keywordTokens "print".data ++ ts) <$> lexer [] ∧
    (String.mk "print".data ≠ "print" → (keywordTokens "print".data).length = 1) ∧
    (String.mk "print".data = "print" →
      keywordTokens "print".data = [Token.Print, Token.Identifier "print"]) :=
  letter_run_token_emission "print".data [] (by decide) (by decide)
    (by intro d hd; simp at hd)

/-- C4: for every well-formed `var name = "text";` — a nonempty
all-letter name that is none of the reserved words, and string-literal
contents free of the quote character — lexing then parsing yields exactly
one `VariableDeclaration` with `mutable = false`, the given name, and a
`Str` value of the literal contents. -/
theorem var_string_declaration (name text : List Char)
    (hne : name ≠ [])
    (hletters : ∀ c ∈ name, isLetter c = true)
    (hp : String.mk name ≠ "print") (hv : String.mk name ≠ "var")
    (hm : String.mk name ≠ "mut")
    (htext : ∀ c ∈ text, isQuote c = false) :
    (lexer ("var ".data ++ (name ++ (" = \"".data ++ (text ++ "\";".data))))).bind parser =
      some [Statement.VariableDeclaration
        ⟨false, String.mk name, ValueType.Str (String.mk text)⟩] := by
  rw [show ("var ".data ++ (name ++ (" = \"".data ++ (text ++ "\";".data))) : List Char) =
    ['v','a','r'] ++ (' ' :: (name ++ (' ' :: '=' :: ' ' :: '"' ::
      (text ++ ('"' :: ';' :: []))))) from rfl]
  rw [lexer_letter_run ['v','a','r'] _ (by decide) (by decide)
    (head_stop_letter (by decide) _)]
  rw [lexer_cons_ws (show isWs ' ' = true by decide)]
  rw [lexer_letter_run name _ hne hletters (head_stop_letter (by decide) _)]
  rw [keywordTokens_id name hp hv hm]
  rw [lexer_cons_ws (show isWs ' ' = true by decide)]
  rw [lexer_cons_equals (by decide) (by decide) (by decide) (by decide) (by decide)]
  rw [lexer_cons_ws (show isWs ' ' = true by decide)]
  rw [lexer_string_run '"' '"' text [';'] (by decide) (by decide) htext]
  rw [show (lexer [';'] : Option (List Token)) = some [Token.Semicolon] from by decide]
  rfl

theorem var_string_declaration_witness :
    (lexer ("var ".data ++ ("name".data ++
        (" = \"".data ++ ("text".data ++ "\";".data))))).bind parser =
      some [Statement.VariableDeclaration
        ⟨false, String.mk "name".data, ValueType.Str (String.mk "text".data)⟩] :=
  var_string_declaration "name".data "text".data (by decide) (by decide)
    (by decide) (by decide) (by decide) (by decide)

/-- C5: for every well-formed `var mut name = 5;` — a nonempty
all-letter non-reserved name and a nonempty run of digits whose value
fits `i32` — lexing then parsing yields exactly one `VariableDeclaration`
with `mutable = true` and an `Int` value of the literal. -/
theorem var_mut_int_declaration (name digits : List Char)
    (hne : name ≠ [])
    (hletters : ∀ c ∈ name, isLetter c = true)
    (hp : String.mk name ≠ "print") (hv : String.mk name ≠ "var")
    (hm : String.mk name ≠ "mut")
    (hdne : digits ≠ []) (hdig : ∀ c ∈ digits, isDig c = true)
    (hfit : digitsVal digits ≤ 2147483647) :
    (lexer ("var mut ".data ++ (name ++ (" = ".data ++ (digits ++ ";".data))))).bind parser =
      some [Statement.VariableDeclaration
        ⟨true, String.mk name, ValueType.Int (Int.ofNat (digitsVal digits))⟩] := by
  rw [show ("var mut ".data ++ (name ++ (" = ".data ++ (digits ++ ";".data))) : List Char) =
    ['v','a','r'] ++ (' ' :: (['m','u','t'] ++ (' ' :: (name ++
      (' ' :: '=' :: ' ' :: (digits ++ (';' :: []))))))) from rfl]
  rw [lexer_letter_run ['v','a','r'] _ (by decide) (by decide)
    (head_stop_letter (by decide) _)]
  rw [lexer_cons_ws (show isWs ' ' = true by decide)]
  rw [lexer_letter_run ['m','u','t'] _ (by decide) (by decide)
    (head_stop_letter (by decide) _)]
  rw [lexer_cons_ws (show isWs ' ' = true by decide)]
  rw [lexer_letter_run name _ hne hletters (head_stop_letter (by decide) _)]
  rw [keywordTokens_id name hp hv hm]
  rw [lexer_cons_ws (show isWs ' ' = true by decide)]
  rw [lexer_cons_equals (by decide) (by decide) (by decide) (by decide) (by decide)]
  rw [lexer_cons_ws (show isWs ' ' = true by decide)]
  rw [lexer_digit_run digits (';' :: []) hdne hdig (head_stop_dig (by decide) _)]
  rw [show parseI32 digits = some (Int.ofNat (digitsVal digits)) from by
    unfold parseI32; rw [if_pos hfit]]
  rw [show (lexer (';' :: []) : Option (List Token)) = some [Token.Semicolon] from by decide]
  rfl

theorem var_mut_int_declaration_witness :
    (lexer ("var mut ".data ++ ("name".data ++
        (" = ".data ++ ("5".data ++ ";".data))))).bind parser =
      some [Statement.VariableDeclaration
        ⟨true, String.mk "name".data, ValueType.Int (Int.ofNat (digitsVal "5".data))⟩] :=
  var_mut_int_declaration "name".data "5".data (by decide) (by decide)
    (by decide) (by decide) (by decide) (by decide) (by decide) (by decide)

/-- C2: for `var name = "Alice";` followed by `print("Hello {name}")`,
the full pipeline emits a print line whose template splices `name` as the
live interpolation reference `${name}` (and not the literal `{name}`):
the generated output is exactly
`const name = 'Alice'` + newline + backquoted `console.log` line with
`Hello ${name}`. -/
theorem interpolation_live_reference :
    compile "var name = \"Alice\";\nprint(\"Hello {name}\")".data =
      some ("const name = ".data ++ (Char.ofNat 39 :: ("Alice".data ++ (Char.ofNat 39 ::
        "\nconsole.log(`Hello ${name}`)\n".data)))) := by decide

/-- C7: for `print("literal {123}")` the brace-wrapped digit run is not
an identifier, so the interpolation rewrite leaves `{123}` unchanged in
the emitted template. -/
theorem interpolation_digits_untouched :
    compile "print(\"literal {123}\")".data =
      some "console.log(`literal {123}`)\n".data := by decide

/-- C8: a statement-leading token that is neither `Var` nor `Print` is
skipped by the parser's top-level loop: no statement is emitted for it,
parsing does not abort, and it continues exactly on the remaining
tokens. -/
theorem parser_skips_unknown_leading (t : Token) (rest : List Token)
    (h1 : t ≠ Token.Var) (h2 : t ≠ Token.Print) :
    parser (t :: rest) = parser rest :=
  parser_skip t rest h1 h2

theorem parser_skips_unknown_leading_witness :
    parser [Token.Equals, Token.Var, Token.Identifier "x", Token.Equals,
        Token.IntLiteral 1, Token.Semicolon] =
      parser [Token.Var, Token.Identifier "x", Token.Equals,
        Token.IntLiteral 1, Token.Semicolon] :=
  parser_skips_unknown_leading Token.Equals _ (by decide) (by decide)

theorem eq_false_of_not_true {b : Bool} (h : ¬ b = true) : b = false := by
  cases b
  · rfl
  · exact absurd rfl h

theorem quoteCount_cons_false {c : Char} (cs : List Char) (h : isQuote c = false) :
    quoteCount (c :: cs) = quoteCount cs := by
  simp [quoteCount, List.countP_cons, h]

theorem quoteCount_cons_true {c : Char} (cs : List Char) (h : isQuote c = true) :
    quoteCount (c :: cs) = quoteCount cs + 1 := by
  simp [quoteCount, List.countP_cons, h]

theorem quoteCount_dropWhile (p : Char → Bool) (l : List Char)
    (hp : ∀ x : Char, p x = true → isQuote x = false) :
    quoteCount (l.dropWhile p) = quoteCount l := by
  conv_rhs => rw [← List.takeWhile_append_dropWhile (p := p) (l := l)]
  unfold quoteCount
  rw [List.countP_append]
  have h0 : (l.takeWhile p).countP isQuote = 0 := by
    rw [List.countP_eq_zero]
    intro a ha
    have hpa : p a = true := by simpa using List.mem_takeWhile_imp ha
    simp [hp a hpa]
  omega

theorem takeWhile_append_dist (p : Char → Bool) (l X : List Char)
    {d : Char} {dw : List Char} (h : l.dropWhile p = d :: dw) :
    (l ++ X).takeWhile p = l.takeWhile p := by
  conv_lhs => rw [← List.takeWhile_append_dropWhile (p := p) (l := l), h,
    List.append_assoc, List.cons_append]
  rw [takeWhile_append_stop _ _ (dropWhile_head_false h)]
  exact takeWhile_eq_self_of_sat (fun x hx => by simpa using List.mem_takeWhile_imp hx)

theorem dropWhile_append_dist (p : Char → Bool) (l X : List Char)
    {d : Char} {dw : List Char} (h : l.dropWhile p = d :: dw) :
    (l ++ X).dropWhile p = d :: (dw ++ X) := by
  conv_lhs => rw [← List.takeWhile_append_dropWhile (p := p) (l := l), h,
    List.append_assoc, List.cons_append]
  rw [dropWhile_append_stop _ _ (dropWhile_head_false h)]
  rw [dropWhile_eq_nil_of_sat (fun x hx => by simpa using List.mem_takeWhile_imp hx),
    List.nil_append]

theorem overflow_aux : ∀ (n : Nat) (s₁ : List Char), s₁.length ≤ n →
    ∀ (run s₂ : List Char), run ≠ [] → (∀ c ∈ run, isDig c = true) →
    2147483647 < digitsVal run → evenQuotes s₁ →
    lexer (s₁ ++ (run ++ s₂)) = none := by
  intro n
  induction n with
  | zero =>
    intro s₁ hlen run s₂ hne hdig hover _
    have hs : s₁ = [] := List.eq_nil_of_length_eq_zero (Nat.le_zero.mp hlen)
    subst hs
    rw [List.nil_append]
    exact lexer_digit_run_overflow run s₂ hne hdig hover
  | succ n ih =>
    intro s₁ hlen run s₂ hne hdig hover heq
    cases s₁ with
    | nil =>
      rw [List.nil_append]
      exact lexer_digit_run_overflow run s₂ hne hdig hover
    | cons c cs =>
      have hcs : cs.length ≤ n := by simpa using hlen
      rw [List.cons_append]
      by_cases hws : isWs c = true
      · rw [lexer_cons_ws hws]
        refine ih cs hcs run s₂ hne hdig hover ?_
        have := quoteCount_cons_false cs (isQuote_of_isWs hws)
        unfold evenQuotes at heq ⊢
        omega
      · have hws' : isWs c = false := eq_false_of_not_true hws
        by_cases hl : isLetter c = true
        · -- letter run at the head
          rw [lexer_cons_letter hl]
          rcases h1 : cs.dropWhile isLetter with _ | ⟨d, dw⟩
          · -- cs is all letters; the next thing scanned is the digit run
            have hcsall := sat_of_dropWhile_eq_nil h1
            rw [dropWhile_append_sat _ hcsall]
            cases run with
            | nil => exact absurd rfl hne
            | cons r0 run' =>
              have hr0 : isDig r0 = true := hdig r0 (List.mem_cons_self r0 run')
              rw [List.cons_append, List.dropWhile_cons_of_neg
                (by simp [isLetter_of_isDig hr0])]
              rw [show (r0 :: (run' ++ s₂) : List Char) = (r0 :: run') ++ s₂ from rfl]
              rw [lexer_digit_run_overflow (r0 :: run') s₂ hne hdig hover]
              rfl
          · -- the letter run ends inside cs
            have hlen' : (d :: dw).length ≤ n := by
              have h2 : (cs.dropWhile isLetter).length ≤ cs.length :=
                length_dropWhile_le' _ _
              rw [h1] at h2
              omega
            rw [dropWhile_append_dist isLetter cs _ h1]
            rw [show (d :: (dw ++ (run ++ s₂)) : List Char) = (d :: dw) ++ (run ++ s₂) from rfl]
            rw [ih (d :: dw) hlen' run s₂ hne hdig hover ?_]
            · rfl
            · have e1 : quoteCount (cs.dropWhile isLetter) = quoteCount cs :=
                quoteCount_dropWhile isLetter cs (fun x hx => isQuote_of_isLetter hx)
              rw [h1] at e1
              have e2 := quoteCount_cons_false cs (isQuote_of_isLetter hl)
              unfold evenQuotes at heq ⊢
              omega
        · have hl' : isLetter c = false := eq_false_of_not_true hl
          by_cases hqc : isQuote c = true
          · -- string literal at head; it closes inside cs by quote parity
            have hodd : quoteCount cs % 2 = 1 := by
              have := quoteCount_cons_true cs hqc
              unfold evenQuotes at heq
              omega
            rcases h1 : cs.dropWhile (fun d => !isQuote d) with _ | ⟨q, rest₁⟩
            · exfalso
              have hall := sat_of_dropWhile_eq_nil h1
              have : quoteCount cs = 0 := by
                rw [quoteCount, List.countP_eq_zero]
                intro a ha
                have := hall a ha
                simp at this
                simp [this]
              omega
            · have hqq : isQuote q = true := by
                have := dropWhile_head_false h1
                simpa using this
              rw [lexer_cons_quote hws' hl' hqc]
              rw [dropWhile_append_dist _ cs _ h1]
              rw [List.drop_one, List.tail_cons]
              have hlen' : rest₁.length ≤ n := by
                have h2 : (cs.dropWhile (fun d => !isQuote d)).length ≤ cs.length :=
                  length_dropWhile_le' _ _
                rw [h1] at h2
                simp only [List.length_cons] at h2
                omega
              rw [show (rest₁ ++ (run ++ s₂) : List Char) = rest₁ ++ (run ++ s₂) from rfl]
              rw [ih rest₁ hlen' run s₂ hne hdig hover ?_]
              · rfl
              · have e1 : quoteCount (cs.dropWhile (fun d => !isQuote d)) = quoteCount cs :=
                  quoteCount_dropWhile _ cs (fun x hx => by simpa using hx)
                rw [h1, quoteCount_cons_true rest₁ hqq] at e1
                unfold evenQuotes
                omega
          · have hqc' : isQuote c = false := eq_false_of_not_true hqc
            by_cases hd : isDig c = true
            · -- digit run at the head of s₁
              rw [lexer_cons_digit hd]
              rcases h1 : cs.dropWhile isDig with _ | ⟨d, dw⟩
              · -- cs all digits: the scanned run absorbs `run`, still overflows
                have hcsall := sat_of_dropWhile_eq_nil h1
                rw [takeWhile_append_sat _ hcsall, takeWhile_append_sat s₂ hdig]
                have hbig : 2147483647 <
                    digitsVal (c :: (cs ++ (run ++ s₂.takeWhile isDig))) := by
                  have e1 : (c :: (cs ++ (run ++ s₂.takeWhile isDig)) : List Char)
                      = (c :: cs) ++ (run ++ s₂.takeWhile isDig) := rfl
                  have h2 : digitsVal (run ++ s₂.takeWhile isDig)
                      ≤ digitsVal ((c :: cs) ++ (run ++ s₂.takeWhile isDig)) :=
                    digitsVal_le_append_right _ _
                  have h3 : digitsVal run ≤ digitsVal (run ++ s₂.takeWhile isDig) :=
                    digitsVal_le_append_left _ _
                  rw [e1]
                  omega
                rw [show parseI32 (c :: (cs ++ (run ++ s₂.takeWhile isDig))) = none from by
                  unfold parseI32; rw [if_neg (by omega)]]
              · -- digit run ends inside cs
                have hdf : isDig d = false := dropWhile_head_false h1
                rw [takeWhile_append_dist isDig cs _ h1, dropWhile_append_dist isDig cs _ h1]
                cases hp : parseI32 (c :: cs.takeWhile isDig) with
                | none => rfl
                | some v =>
                  have hlen' : (d :: dw).length ≤ n := by
                    have h2 : (cs.dropWhile isDig).length ≤ cs.length :=
                      length_dropWhile_le' _ _
                    rw [h1] at h2
                    omega
                  rw [show (d :: (dw ++ (run ++ s₂)) : List Char)
                    = (d :: dw) ++ (run ++ s₂) from rfl]
                  rw [ih (d :: dw) hlen' run s₂ hne hdig hover ?_]
                  · rfl
                  · have e1 : quoteCount (cs.dropWhile isDig) = quoteCount cs :=
                      quoteCount_dropWhile isDig cs (fun x hx => isQuote_of_isDig hx)
                    rw [h1] at e1
                    have e2 := quoteCount_cons_false cs (isQuote_of_isDig hd)
                    unfold evenQuotes at heq ⊢
                    omega
            · have hd' : isDig c = false := eq_false_of_not_true hd
              have hrest : evenQuotes cs := by
                have := quoteCount_cons_false cs hqc'
                unfold evenQuotes at heq ⊢
                omega
              by_cases h61 : c.toNat = 61
              · rw [lexer_cons_equals hws' hl' hqc' hd' h61,
                  ih cs hcs run s₂ hne hdig hover hrest]
                rfl
              · by_cases h59 : c.toNat = 59
                · rw [lexer_cons_semicolon hws' hl' hqc' hd' h59,
                    ih cs hcs run s₂ hne hdig hover hrest]
                  rfl
                · by_cases h123 : c.toNat = 123
                  · rw [lexer_cons_open hws' hl' hqc' hd' h123,
                      ih cs hcs run s₂ hne hdig hover hrest]
                    rfl
                  · by_cases h125 : c.toNat = 125
                    · rw [lexer_cons_close hws' hl' hqc' hd' h125,
                        ih cs hcs run s₂ hne hdig hover hrest]
                      rfl
                    · rw [lexer_cons_other hws' hl' hqc' hd' h61 h59 h123 h125]
                      exact ih cs hcs run s₂ hne hdig hover hrest

/-- C6: a decimal digit run scanned by the lexer (at a token position:
outside any string literal, which is what the even-quote hypothesis on
the preceding text says) whose value does not fit `i32` makes the whole
lexer fail (the `unwrap` on `parse` panics), rather than silently
truncating -- no matter what precedes or follows; in particular absorbing
adjacent digits into the run cannot rescue it, so no boundary hypotheses
on the run are needed. -/
theorem overflow_is_fatal (s₁ run s₂ : List Char) (hq : evenQuotes s₁)
    (hne : run ≠ []) (hdig : ∀ c ∈ run, isDig c = true)
    (hover : 2147483647 < digitsVal run) :
    lexer (s₁ ++ (run ++ s₂)) = none :=
  overflow_aux s₁.length s₁ (le_refl _) run s₂ hne hdig hover hq

theorem overflow_is_fatal_witness :
    lexer (([] : List Char) ++ (List.replicate 50 (Char.ofNat 57) ++ [])) = none :=
  overflow_is_fatal [] (List.replicate 50 (Char.ofNat 57)) []
    (by unfold evenQuotes; decide) (by decide) (by decide) (by decide)

/-- C10: a brace-wrapped segment whose whole text is one of the reserved
words `var`, `mut`, `print` is never rewritten by the interpolation
rewrite: its first lexed token is the keyword marker, not `Identifier` of
the segment text, so `interpStep` leaves any accumulated string
unchanged; in particular the brace-wrapped segment itself (for example
`{var}`) passes through `interpolate` untouched. -/
theorem reserved_segment_not_rewritten (acc w : List Char)
    (h : String.mk w = "var" ∨ String.mk w = "mut" ∨ String.mk w = "print") :
    interpStep acc w = some acc ∧
    interpolate (Char.ofNat 123 :: (w ++ [Char.ofNat 125])) =
      some (Char.ofNat 123 :: (w ++ [Char.ofNat 125])) := by
  have hw : w = "var".data ∨ w = "mut".data ∨ w = "print".data := by
    rcases h with h | h | h
    · exact Or.inl (congrArg String.data h)
    · exact Or.inr (Or.inl (congrArg String.data h))
    · exact Or.inr (Or.inr (congrArg String.data h))
  rcases hw with rfl | rfl | rfl
  · exact ⟨rfl, by decide⟩
  · exact ⟨rfl, by decide⟩
  · exact ⟨rfl, by decide⟩

theorem reserved_segment_not_rewritten_witness :
    interpStep "x".data "var".data = some "x".data ∧
    interpolate (Char.ofNat 123 :: ("var".data ++ [Char.ofNat 125])) =
      some (Char.ofNat 123 :: ("var".data ++ [Char.ofNat 125])) :=
  reserved_segment_not_rewritten "x".data "var".data (Or.inl rfl)

theorem print_fold_eq (args : List ValueType) : ∀ cacc : List (List Char),
    List.foldlM (fun acc a => match a with
        | ValueType.Str s => (interpolate s.data).map (fun t => acc ++ printLine t)
        | ValueType.Int _ => some acc) cacc.flatten args =
      (List.foldlM (fun acc a => match a with
        | ValueType.Str s => (interpolate s.data).map (fun t => acc ++ [printLine t])
        | ValueType.Int _ => some acc) cacc args).map List.flatten := by
  induction args with
  | nil => intro cacc; rfl
  | cons a args ih =>
    intro cacc
    cases a with
    | Int i =>
      simp only [List.foldlM]
      exact ih cacc
    | Str s =>
      simp only [List.foldlM]
      cases hI : interpolate s.data with
      | none => simp [hI]
      | some t =>
        simp only [hI, Option.map_some']
        have e : cacc.flatten ++ printLine t = (cacc ++ [printLine t]).flatten := by
          simp [List.flatten_append]
        rw [e]
        exact ih (cacc ++ [printLine t])

theorem genStmt_chunks (st : Statement) :
    genStmt st = (stmtChunks st).map List.flatten := by
  cases st with
  | VariableDeclaration d => simp [genStmt, stmtChunks]
  | FunctionCall f =>
    by_cases hf : f.name = "print"
    · simp only [genStmt, stmtChunks, if_pos hf]
      have h := print_fold_eq f.arguments []
      simpa using h
    · simp [genStmt, stmtChunks, hf]

theorem generate_js_eq_chunks (ast : List Statement) : ∀ acc : List Char,
    ast.foldlM (fun acc st => (genStmt st).map (fun l => acc ++ l)) acc =
      (astChunks ast).map (fun css => acc ++ (css.map List.flatten).flatten) := by
  induction ast with
  | nil => intro acc; simp [astChunks]
  | cons st rest ih =>
    intro acc
    simp only [List.foldlM, astChunks]
    rw [genStmt_chunks st]
    cases hc : stmtChunks st with
    | none => simp
    | some cs =>
      simp only [Option.map_some']
      rw [show (some (acc ++ cs.flatten) >>=
          fun b => rest.foldlM (fun acc st => (genStmt st).map (fun l => acc ++ l)) b :
          Option (List Char)) =
          rest.foldlM (fun acc st => (genStmt st).map (fun l => acc ++ l)) (acc ++ cs.flatten)
        from rfl]
      rw [ih (acc ++ cs.flatten)]
      cases hr : astChunks rest with
      | none => simp
      | some css => simp [List.append_assoc]

theorem printLine_shape (t : List Char) :
    printLine t ≠ [] ∧ (printLine t).getLast? = some (Char.ofNat 10) := by
  constructor
  · simp [printLine]
  · show (("console.log(`".data ++ t) ++ "`)\n".data).getLast? = some (Char.ofNat 10)
    rw [List.getLast?_append]
    rfl

theorem declLine_shape (d : VariableDeclaration) :
    declLine d ≠ [] ∧ (declLine d).getLast? = some (Char.ofNat 10) := by
  constructor
  · simp [declLine]
  · show (_ ++ "\n".data).getLast? = some (Char.ofNat 10)
    rw [List.getLast?_append]
    rfl

theorem print_chunk_fold (args : List ValueType) : ∀ (cacc cs : List (List Char)),
    List.foldlM (fun acc a => match a with
      | ValueType.Str s => (interpolate s.data).map (fun t => acc ++ [printLine t])
      | ValueType.Int _ => some acc) cacc args = some cs →
    cs.length = cacc.length + args.countP (fun a => match a with
      | ValueType.Str _ => true
      | ValueType.Int _ => false) ∧
    ((∀ l ∈ cacc, l ≠ [] ∧ l.getLast? = some (Char.ofNat 10)) →
      ∀ l ∈ cs, l ≠ [] ∧ l.getLast? = some (Char.ofNat 10)) := by
  induction args with
  | nil =>
    intro cacc cs h
    injection h with h
    subst h
    exact ⟨by simp, fun hacc => hacc⟩
  | cons a args ih =>
    intro cacc cs h
    cases a with
    | Int i =>
      simp only [List.foldlM] at h
      obtain ⟨h1, h2⟩ := ih cacc cs h
      refine ⟨?_, h2⟩
      simpa [List.countP_cons] using h1
    | Str s =>
      simp only [List.foldlM] at h
      cases hI : interpolate s.data with
      | none =>
        rw [hI] at h
        simp at h
      | some t =>
        rw [hI] at h
        simp only [Option.map_some'] at h
        obtain ⟨h1, h2⟩ := ih (cacc ++ [printLine t]) cs h
        constructor
        · simp only [List.length_append, List.length_singleton] at h1
          simp [List.countP_cons]
          omega
        · intro hacc
          refine h2 ?_
          intro l hl
          rcases List.mem_append.mp hl with hl | hl
          · exact hacc l hl
          · rcases List.mem_singleton.mp hl with rfl
            exact printLine_shape t

theorem stmtChunks_shape (st : Statement) (cs : List (List Char))
    (h : stmtChunks st = some cs) :
    cs.length = lineCount st ∧
    ∀ l ∈ cs, l ≠ [] ∧ l.getLast? = some (Char.ofNat 10) := by
  cases st with
  | VariableDeclaration d =>
    simp only [stmtChunks] at h
    injection h with h
    subst h
    refine ⟨rfl, ?_⟩
    intro l hl
    rcases List.mem_singleton.mp hl with rfl
    exact declLine_shape d
  | FunctionCall f =>
    by_cases hf : f.name = "print"
    · simp only [stmtChunks, if_pos hf] at h
      obtain ⟨h1, h2⟩ := print_chunk_fold f.arguments [] cs h
      refine ⟨?_, h2 (by simp)⟩
      simp only [lineCount, if_pos hf]
      simpa using h1
    · simp only [stmtChunks, if_neg hf] at h
      injection h with h
      subst h
      exact ⟨by simp [lineCount, hf], by simp⟩

theorem astChunks_forall (ast : List Statement) :
    ∀ css, astChunks ast = some css →
    List.Forall₂ (fun st cs => stmtChunks st = some cs) ast css := by
  induction ast with
  | nil =>
    intro css h
    injection h with h
    subst h
    exact List.Forall₂.nil
  | cons st rest ih =>
    intro css h
    simp only [astChunks] at h
    cases hc : stmtChunks st with
    | none => rw [hc] at h; simp at h
    | some cs =>
      rw [hc] at h
      cases hr : astChunks rest with
      | none => rw [hr] at h; simp at h
      | some css' =>
        rw [hr] at h
        injection h with h
        subst h
        exact List.Forall₂.cons hc (ih css' hr)

/-- C3 counterexample: an AST consisting of the single statement
`print(5)` (a print call with an integer argument) makes `generate_js`
emit the empty output — zero lines, not exactly one line per statement. -/
theorem generate_js_print_int_no_line :
    generate_js [Statement.FunctionCall ⟨"print", [ValueType.Int 5]⟩] = some [] := by decide

/-- C3 amended: `generate_js` emits newline-terminated lines concatenated
in AST order, with exactly `lineCount` lines per statement: one for each
variable declaration, one per `Str` argument of a call named `print`,
and none for `Int` print arguments or calls with another name. -/
theorem generate_js_line_structure (ast : List Statement) (out : List Char)
    (h : generate_js ast = some out) :
    ∃ css, astChunks ast = some css ∧ css.length = ast.length ∧
      out = (css.map List.flatten).flatten ∧
      List.Forall₂ (fun st cs => cs.length = lineCount st ∧
        ∀ l ∈ cs, l ≠ [] ∧ l.getLast? = some (Char.ofNat 10)) ast css := by
  have hmain := generate_js_eq_chunks ast []
  unfold generate_js at h
  rw [hmain] at h
  cases hA : astChunks ast with
  | none => rw [hA] at h; simp at h
  | some css =>
    rw [hA] at h
    simp only [Option.map_some', List.nil_append] at h
    injection h with h
    have hF := astChunks_forall ast css hA
    refine ⟨css, rfl, hF.length_eq.symm, h.symm, ?_⟩
    exact hF.imp (fun st cs hsc => stmtChunks_shape st cs hsc)

theorem generate_js_line_structure_witness :
    ∃ css, astChunks [Statement.VariableDeclaration ⟨false, "x", ValueType.Int 1⟩] = some css ∧
      css.length = [Statement.VariableDeclaration ⟨false, "x", ValueType.Int 1⟩].length ∧
      "const x = 1\n".data = (css.map List.flatten).flatten ∧
      List.Forall₂ (fun st cs => cs.length = lineCount st ∧
        ∀ l ∈ cs, l ≠ [] ∧ l.getLast? = some (Char.ofNat 10))
        [Statement.VariableDeclaration ⟨false, "x", ValueType.Int 1⟩] css :=
  generate_js_line_structure _ _ (by decide)

theorem sepOk_suffix {s₁ s₂ : List Char} (pre suf : List Char)
    (hs : s₁ = pre ++ suf) (h : sepOk s₁ s₂) : sepOk suf s₂ := by
  cases suf with
  | nil =>
    intro a b ha _
    simp at ha
  | cons x xs =>
    intro a b ha hb
    refine h a b ?_ hb
    rw [hs, List.getLast?_append, ha]
    rfl

theorem last_stop_letter {s₁ s₂ : List Char} (h : sepOk s₁ s₂) (hne : s₁ ≠ [])
    (hall : ∀ x ∈ s₁, isLetter x = true) :
    ∀ b, s₂.head? = some b → isLetter b = false := by
  intro b hb
  have hl := List.getLast?_eq_getLast s₁ hne
  have hmem := List.getLast_mem hne
  rcases (h _ b hl hb).1 with hA | hB
  · rw [hall _ hmem] at hA
    cases hA
  · exact hB

theorem last_stop_dig {s₁ s₂ : List Char} (h : sepOk s₁ s₂) (hne : s₁ ≠ [])
    (hall : ∀ x ∈ s₁, isDig x = true) :
    ∀ b, s₂.head? = some b → isDig b = false := by
  intro b hb
  have hl := List.getLast?_eq_getLast s₁ hne
  have hmem := List.getLast_mem hne
  rcases (h _ b hl hb).2 with hA | hB
  · rw [hall _ hmem] at hA
    cases hA
  · exact hB

theorem ws_insert_aux (w0 : Char) (w' s₂ : List Char)
    (hw : wsOnly (w0 :: w')) :
    ∀ (n : Nat) (s₁ : List Char), s₁.length ≤ n → evenQuotes s₁ → sepOk s₁ s₂ →
    lexer (s₁ ++ ((w0 :: w') ++ s₂)) = lexer (s₁ ++ s₂) := by
  have hw0 : isWs w0 = true := hw w0 (List.mem_cons_self w0 w')
  intro n
  induction n with
  | zero =>
    intro s₁ hlen _ _
    have hs : s₁ = [] := List.eq_nil_of_length_eq_zero (Nat.le_zero.mp hlen)
    subst hs
    rw [List.nil_append, List.nil_append]
    exact lexer_ws_skip (w0 :: w') s₂ hw
  | succ n ih =>
    intro s₁ hlen heq hsep
    cases s₁ with
    | nil =>
      rw [List.nil_append, List.nil_append]
      exact lexer_ws_skip (w0 :: w') s₂ hw
    | cons c cs =>
      have hcs : cs.length ≤ n := by simpa using hlen
      rw [show ((c :: cs) ++ ((w0 :: w') ++ s₂) : List Char)
          = c :: (cs ++ ((w0 :: w') ++ s₂)) from rfl,
        show ((c :: cs) ++ s₂ : List Char) = c :: (cs ++ s₂) from rfl]
      by_cases hws : isWs c = true
      · simp only [lexer_cons_ws hws]
        refine ih cs hcs ?_ (sepOk_suffix [c] cs rfl hsep)
        have := quoteCount_cons_false cs (isQuote_of_isWs hws)
        unfold evenQuotes at heq ⊢
        omega
      · have hws' : isWs c = false := eq_false_of_not_true hws
        by_cases hl : isLetter c = true
        · simp only [lexer_cons_letter hl]
          rcases h1 : cs.dropWhile isLetter with _ | ⟨d, dw⟩
          · -- c :: cs is all letters: the run is bounded on the right by
            -- the whitespace (left side) or by sepOk (right side)
            have hcsall := sat_of_dropWhile_eq_nil h1
            have hallc : ∀ x ∈ c :: cs, isLetter x = true := by
              intro x hx
              rcases List.mem_cons.mp hx with rfl | hx
              · exact hl
              · exact hcsall x hx
            have hstop := last_stop_letter hsep (List.cons_ne_nil c cs) hallc
            have hnl : ¬ isLetter w0 = true := by simp [isLetter_of_isWs hw0]
            rw [takeWhile_append_sat _ hcsall, dropWhile_append_sat _ hcsall,
              takeWhile_append_sat _ hcsall, dropWhile_append_sat _ hcsall]
            rw [show ((w0 :: w') ++ s₂ : List Char) = w0 :: (w' ++ s₂) from rfl]
            rw [List.takeWhile_cons_of_neg hnl, List.dropWhile_cons_of_neg hnl]
            rw [show (w0 :: (w' ++ s₂) : List Char) = (w0 :: w') ++ s₂ from rfl]
            rw [lexer_ws_skip (w0 :: w') s₂ hw]
            cases s₂ with
            | nil => simp
            | cons b s₂' =>
              have hb : ¬ isLetter b = true := by simp [hstop b rfl]
              rw [List.takeWhile_cons_of_neg hb, List.dropWhile_cons_of_neg hb]
          · -- the letter run ends inside cs
            have hlen' : (d :: dw).length ≤ n := by
              have h2 : (cs.dropWhile isLetter).length ≤ cs.length :=
                length_dropWhile_le' _ _
              rw [h1] at h2
              omega
            have hs : (c :: cs : List Char) = (c :: cs.takeWhile isLetter) ++ (d :: dw) := by
              rw [List.cons_append, ← h1, List.takeWhile_append_dropWhile]
            have hq' : evenQuotes (d :: dw) := by
              have e1 : quoteCount (cs.dropWhile isLetter) = quoteCount cs :=
                quoteCount_dropWhile isLetter cs (fun x hx => isQuote_of_isLetter hx)
              rw [h1] at e1
              have e2 := quoteCount_cons_false cs (isQuote_of_isLetter hl)
              unfold evenQuotes at heq ⊢
              omega
            simp only [takeWhile_append_dist isLetter cs _ h1,
              dropWhile_append_dist isLetter cs _ h1]
            rw [show (d :: (dw ++ ((w0 :: w') ++ s₂)) : List Char)
                = (d :: dw) ++ ((w0 :: w') ++ s₂) from rfl,
              show (d :: (dw ++ s₂) : List Char) = (d :: dw) ++ s₂ from rfl,
              ih (d :: dw) hlen' hq' (sepOk_suffix _ _ hs hsep)]
        · have hl' : isLetter c = false := eq_false_of_not_true hl
          by_cases hqc : isQuote c = true
          · -- string literal: closes inside cs by quote parity
            have hodd : quoteCount cs % 2 = 1 := by
              have := quoteCount_cons_true cs hqc
              unfold evenQuotes at heq
              omega
            rcases h1 : cs.dropWhile (fun d => !isQuote d) with _ | ⟨q, rest₁⟩
            · exfalso
              have hall := sat_of_dropWhile_eq_nil h1
              have : quoteCount cs = 0 := by
                rw [quoteCount, List.countP_eq_zero]
                intro a ha
                have := hall a ha
                simp at this
                simp [this]
              omega
            · have hqq : isQuote q = true := by
                have := dropWhile_head_false h1
                simpa using this
              have hlen' : rest₁.length ≤ n := by
                have h2 : (cs.dropWhile (fun d => !isQuote d)).length ≤ cs.length :=
                  length_dropWhile_le' _ _
                rw [h1] at h2
                simp only [List.length_cons] at h2
                omega
              have hs : (c :: cs : List Char)
                  = (c :: (cs.takeWhile (fun d => !isQuote d) ++ [q])) ++ rest₁ := by
                rw [List.cons_append, List.append_assoc,
                  show ([q] ++ rest₁ : List Char) = q :: rest₁ from rfl, ← h1,
                  List.takeWhile_append_dropWhile]
              have hq' : evenQuotes rest₁ := by
                have e1 : quoteCount (cs.dropWhile (fun d => !isQuote d)) = quoteCount cs :=
                  quoteCount_dropWhile _ cs (fun x hx => by simpa using hx)
                rw [h1, quoteCount_cons_true rest₁ hqq] at e1
                unfold evenQuotes
                omega
              simp only [lexer_cons_quote hws' hl' hqc]
              simp only [takeWhile_append_dist _ cs _ h1, dropWhile_append_dist _ cs _ h1]
              simp only [List.drop_one, List.tail_cons]
              rw [ih rest₁ hlen' hq' (sepOk_suffix _ _ hs hsep)]
          · have hqc' : isQuote c = false := eq_false_of_not_true hqc
            by_cases hd : isDig c = true
            · simp only [lexer_cons_digit hd]
              rcases h1 : cs.dropWhile isDig with _ | ⟨d, dw⟩
              · -- c :: cs all digits
                have hcsall := sat_of_dropWhile_eq_nil h1
                have hallc : ∀ x ∈ c :: cs, isDig x = true := by
                  intro x hx
                  rcases List.mem_cons.mp hx with rfl | hx
                  · exact hd
                  · exact hcsall x hx
                have hstop := last_stop_dig hsep (List.cons_ne_nil c cs) hallc
                have hnd : ¬ isDig w0 = true := by simp [isDig_of_isWs hw0]
                rw [takeWhile_append_sat _ hcsall, dropWhile_append_sat _ hcsall,
                  takeWhile_append_sat _ hcsall, dropWhile_append_sat _ hcsall]
                rw [show ((w0 :: w') ++ s₂ : List Char) = w0 :: (w' ++ s₂) from rfl]
                rw [List.takeWhile_cons_of_neg hnd, List.dropWhile_cons_of_neg hnd]
                rw [show (w0 :: (w' ++ s₂) : List Char) = (w0 :: w') ++ s₂ from rfl]
                rw [lexer_ws_skip (w0 :: w') s₂ hw]
                cases s₂ with
                | nil => simp
                | cons b s₂' =>
                  have hb : ¬ isDig b = true := by simp [hstop b rfl]
                  rw [List.takeWhile_cons_of_neg hb, List.dropWhile_cons_of_neg hb]
              · -- digit run ends inside cs
                have hlen' : (d :: dw).length ≤ n := by
                  have h2 : (cs.dropWhile isDig).length ≤ cs.length :=
                    length_dropWhile_le' _ _
                  rw [h1] at h2
                  omega
                have hs : (c :: cs : List Char) = (c :: cs.takeWhile isDig) ++ (d :: dw) := by
                  rw [List.cons_append, ← h1, List.takeWhile_append_dropWhile]
                have hq' : evenQuotes (d :: dw) := by
                  have e1 : quoteCount (cs.dropWhile isDig) = quoteCount cs :=
                    quoteCount_dropWhile isDig cs (fun x hx => isQuote_of_isDig hx)
                  rw [h1] at e1
                  have e2 := quoteCount_cons_false cs (isQuote_of_isDig hd)
                  unfold evenQuotes at heq ⊢
                  omega
                simp only [takeWhile_append_dist isDig cs _ h1,
                  dropWhile_append_dist isDig cs _ h1]
                cases hp : parseI32 (c :: cs.takeWhile isDig) with
                | none => rfl
                | some v =>
                  rw [show (d :: (dw ++ ((w0 :: w') ++ s₂)) : List Char)
                      = (d :: dw) ++ ((w0 :: w') ++ s₂) from rfl,
                    show (d :: (dw ++ s₂) : List Char) = (d :: dw) ++ s₂ from rfl,
                    ih (d :: dw) hlen' hq' (sepOk_suffix _ _ hs hsep)]
            · have hd' : isDig c = false := eq_false_of_not_true hd
              have hq' : evenQuotes cs := by
                have := quoteCount_cons_false cs hqc'
                unfold evenQuotes at heq ⊢
                omega
              have hsep' : sepOk cs s₂ := sepOk_suffix [c] cs rfl hsep
              by_cases h61 : c.toNat = 61
              · simp only [lexer_cons_equals hws' hl' hqc' hd' h61]
                rw [ih cs hcs hq' hsep']
              · by_cases h59 : c.toNat = 59
                · simp only [lexer_cons_semicolon hws' hl' hqc' hd' h59]
                  rw [ih cs hcs hq' hsep']
                · by_cases h123 : c.toNat = 123
                  · simp only [lexer_cons_open hws' hl' hqc' hd' h123]
                    rw [ih cs hcs hq' hsep']
                  · by_cases h125 : c.toNat = 125
                    · simp only [lexer_cons_close hws' hl' hqc' hd' h125]
                      rw [ih cs hcs hq' hsep']
                    · simp only [lexer_cons_other hws' hl' hqc' hd' h61 h59 h123 h125]
                      exact ih cs hcs hq' hsep'

/-- C9: inserting a block of whitespace characters at a token boundary —
a position whose prefix has balanced quotes (so it is not inside a string
literal) and which does not split a letter run or a digit run — does not
change the lexed tokens, and therefore the parsed AST is identical to
that of the form without the inserted whitespace.  Applying this once per
gap relates any extra-whitespace form of a program to its
minimal-whitespace form. -/
theorem whitespace_insertion_preserves_ast (s₁ w s₂ : List Char)
    (hw : wsOnly w) (hq : evenQuotes s₁) (hsep : sepOk s₁ s₂) :
    (lexer (s₁ ++ (w ++ s₂))).bind parser = (lexer (s₁ ++ s₂)).bind parser := by
  cases w with
  | nil => rfl
  | cons w0 w' =>
    rw [ws_insert_aux w0 w' s₂ hw s₁.length s₁ (le_refl _) hq hsep]

theorem whitespace_insertion_preserves_ast_witness :
    (lexer ("var x =".data ++ ("\n\t ".data ++ " 1;".data))).bind parser =
      (lexer ("var x =".data ++ " 1;".data)).bind parser :=
  whitespace_insertion_preserves_ast "var x =".data "\n\t ".data " 1;".data
    (by unfold wsOnly; decide) (by unfold evenQuotes; decide)
    (by
      intro a b ha hb
      have he : ("var x =".data : List Char).getLast? = some '=' := by decide
      rw [he] at ha
      injection ha with h
      subst h
      exact ⟨Or.inl (by decide), Or.inl (by decide)⟩)
